import Mathlib

/-!
Verification of the polynomial-interpolation notebook
(`_posts/scikit/Polynomial-interpolation/Polynomial Interpolation.ipynb`).

The notebook's computational pipeline is: expand each scalar sample into its
polynomial feature vector (`PolynomialFeatures(degree)`), fit a ridge-regularized
linear model (`Ridge()`), and evaluate the fitted model on a dense grid
(`model.predict`).  The feature expansion, ridge solve and prediction are
performed by library calls whose bodies are not part of the repository, so they
are modelled here from the specification, over exact rational arithmetic.
The notebook's own data-generation step (`y = f(x)` with `f(x) = x*sin(x)`)
is embedded directly.
-/

namespace PolyInterp

open Matrix

/-- Vectors of rationals indexed by `Fin n`. -/
abbrev Vec (n : ℕ) := Fin n → ℚ

/-- Rectangular rational matrices. -/
abbrev Mat (n m : ℕ) := Matrix (Fin n) (Fin m) ℚ

/-- Squared Euclidean norm of a vector: the dot product with itself. -/
def sqNorm {n : ℕ} (v : Vec n) : ℚ := v ⬝ᵥ v

/-- Modelled from the spec: the error kinds of section 7 of the spec
(`InvalidParameter`, `SingularMatrix`, `NotFitted`, `DimensionMismatch`);
the underlying library code is not part of the repository. -/
inductive RidgeError : Type
  | InvalidParameter : RidgeError
  | SingularMatrix : RidgeError
  | NotFitted : RidgeError
  | DimensionMismatch : RidgeError
deriving DecidableEq, Repr

/-- Modelled from the spec: the Feature Expander contract of
`PolynomialFeatures(degree)` for a single scalar: the vector
`[x^0, x^1, ..., x^d]`. -/
def polyFeatures (d : ℕ) (x : ℚ) : Vec (d + 1) := fun k => x ^ (k : ℕ)

/-- Modelled from the spec: the design (Vandermonde) matrix obtained by applying
the Feature Expander row-wise to an ordered sequence of `n` scalars: entry
`(i, k)` is `x_i ^ k`. -/
def designMatrix {n : ℕ} (d : ℕ) (xs : Vec n) : Mat n (d + 1) :=
  Matrix.of fun i k => xs i ^ (k : ℕ)

/-- The regularized normal-equations matrix `XᵀX + λ·I`. -/
def ridgeA {n m : ℕ} (X : Mat n m) (lam : ℚ) : Matrix (Fin m) (Fin m) ℚ :=
  Xᵀ * X + lam • (1 : Matrix (Fin m) (Fin m) ℚ)

/-- Modelled from the spec: the Ridge Fitter (`Ridge().fit`), whose body is not
part of the repository.  It solves the regularized normal equations in closed
form, `β = (XᵀX + λI)⁻¹ Xᵀ y`, written via the adjugate so the definition is
executable, and fails with `SingularMatrix` when `XᵀX + λI` is not invertible.
The bias column is regularized identically to all other columns. -/
def ridgeFit {n m : ℕ} (X : Mat n m) (y : Vec n) (lam : ℚ) :
    Except RidgeError (Vec m) :=
  if (ridgeA X lam).det = 0 then .error .SingularMatrix
  else .ok (((ridgeA X lam).det)⁻¹ • ((ridgeA X lam).adjugate *ᵥ (Xᵀ *ᵥ y)))

/-- The regularized least-squares objective `‖Xβ − y‖² + λ‖β‖²`. -/
def ridgeObjective {n m : ℕ} (X : Mat n m) (y : Vec n) (lam : ℚ) (β : Vec m) : ℚ :=
  sqNorm (X *ᵥ β - y) + lam * sqNorm β

/-- A fitted model: a degree and the coefficient vector produced by the Ridge
Fitter (spec section 3: `Model` owns `{degree, coefficient vector}`). -/
structure Model : Type where
  degree : ℕ
  coef : Vec (degree + 1)

/-- Modelled from the spec: evaluation of a fitted model at one query scalar:
expand the query at the model's stored degree and take the dot product with
the coefficient vector. -/
def evalModel (m : Model) (x : ℚ) : ℚ := polyFeatures m.degree x ⬝ᵥ m.coef

/-- Modelled from the spec: the Predictor (`model.predict`) applied to an
ordered sequence of query scalars. -/
def predict (m : Model) (qs : List ℚ) : List ℚ := qs.map (evalModel m)

/-- Modelled from the spec: the full pipeline
`make_pipeline(PolynomialFeatures(degree), Ridge()).fit`: build the design
matrix from the training inputs, then run the Ridge Fitter on it. -/
def fitPoly {n : ℕ} (d : ℕ) (xs : Vec n) (y : Vec n) (lam : ℚ) :
    Except RidgeError Model :=
  (ridgeFit (designMatrix d xs) y lam).map (fun β => ⟨d, β⟩)

/-- Modelled from the spec: the default regularization strength of the ridge
solver, used by the notebook's bare `Ridge()` constructor (library default
`alpha = 1.0`). -/
def defaultAlpha : ℚ := 1

/-- The ground-truth function of the notebook: `f(x) = x * sin(x)`
(the notebook's `def f(x): return x * np.sin(x)`). -/
noncomputable def f (x : ℝ) : ℝ := x * Real.sin x

/-- The notebook's training targets, `y = f(x)`: the ground-truth function
applied pointwise to the 20 retained training inputs.  The inputs themselves
come from a pseudo-random shuffle and subsample of `linspace(0, 10, 100)`,
so they are taken here as an arbitrary vector `trainX`. -/
noncomputable def trainY (trainX : Fin 20 → ℝ) : Fin 20 → ℝ := fun i => f (trainX i)

/-! ### Basic lemmas about the squared norm and the normal-equations matrix -/

lemma sqNorm_nonneg {n : ℕ} (v : Vec n) : 0 ≤ sqNorm v :=
  Finset.sum_nonneg fun i _ => mul_self_nonneg (v i)

lemma sqNorm_eq_zero_iff {n : ℕ} {v : Vec n} : sqNorm v = 0 ↔ v = 0 :=
  Matrix.dotProduct_self_eq_zero

lemma sqNorm_pos {n : ℕ} {v : Vec n} (hv : v ≠ 0) : 0 < sqNorm v :=
  lt_of_le_of_ne (sqNorm_nonneg v) fun h => hv (sqNorm_eq_zero_iff.mp h.symm)

lemma sqNorm_add {n : ℕ} (u w : Vec n) :
    sqNorm (u + w) = sqNorm u + 2 * (u ⬝ᵥ w) + sqNorm w := by
  simp only [sqNorm, dotProduct_add, add_dotProduct, dotProduct_comm w u]
  ring

lemma dotProduct_mulVec_shift {n m : ℕ} (X : Mat n m) (w : Vec n) (v : Vec m) :
    w ⬝ᵥ (X *ᵥ v) = (Xᵀ *ᵥ w) ⬝ᵥ v := by
  rw [Matrix.dotProduct_mulVec, Matrix.mulVec_transpose]

lemma ridgeA_mulVec {n m : ℕ} (X : Mat n m) (lam : ℚ) (v : Vec m) :
    ridgeA X lam *ᵥ v = Xᵀ *ᵥ (X *ᵥ v) + lam • v := by
  rw [ridgeA, Matrix.add_mulVec, Matrix.mulVec_mulVec, Matrix.smul_mulVec_assoc,
    Matrix.one_mulVec]

lemma quadForm_ridgeA {n m : ℕ} (X : Mat n m) (lam : ℚ) (v : Vec m) :
    v ⬝ᵥ (ridgeA X lam *ᵥ v) = sqNorm (X *ᵥ v) + lam * sqNorm v := by
  rw [ridgeA_mulVec, dotProduct_add, dotProduct_mulVec_shift, Matrix.transpose_transpose,
    dotProduct_smul]
  simp [sqNorm, dotProduct_comm]

lemma ridgeA_det_ne_zero_of_pos {n m : ℕ} (X : Mat n m) {lam : ℚ} (hlam : 0 < lam) :
    (ridgeA X lam).det ≠ 0 := by
  intro hdet
  obtain ⟨v, hv, hAv⟩ := Matrix.exists_mulVec_eq_zero_iff.mpr hdet
  have h0 : v ⬝ᵥ (ridgeA X lam *ᵥ v) = 0 := by rw [hAv, dotProduct_zero]
  rw [quadForm_ridgeA] at h0
  have h1 : 0 < sqNorm (X *ᵥ v) + lam * sqNorm v :=
    lt_add_of_nonneg_of_lt (sqNorm_nonneg _) (mul_pos hlam (sqNorm_pos hv))
  exact absurd h0 (ne_of_gt h1)

/-! ### The Ridge Fitter solves the regularized normal equations -/

lemma ridgeFit_normalEq {n m : ℕ} {X : Mat n m} {y : Vec n} {lam : ℚ} {β : Vec m}
    (h : ridgeFit X y lam = .ok β) :
    (ridgeA X lam).det ≠ 0 ∧ ridgeA X lam *ᵥ β = Xᵀ *ᵥ y := by
  rw [ridgeFit] at h
  split at h
  · exact absurd h (by simp)
  · next hdet =>
    refine ⟨hdet, ?_⟩
    have hβ : β = ((ridgeA X lam).det)⁻¹ • ((ridgeA X lam).adjugate *ᵥ (Xᵀ *ᵥ y)) := by
      exact (Except.ok.inj h).symm
    rw [hβ, Matrix.mulVec_smul, Matrix.mulVec_mulVec, Matrix.mul_adjugate,
      Matrix.smul_mulVec_assoc, Matrix.one_mulVec, smul_smul,
      inv_mul_cancel₀ hdet, one_smul]

lemma ridgeFit_eq_ok {n m : ℕ} (X : Mat n m) (y : Vec n) (lam : ℚ) (β : Vec m)
    (hdet : (ridgeA X lam).det ≠ 0) (hβ : ridgeA X lam *ᵥ β = Xᵀ *ᵥ y) :
    ridgeFit X y lam = .ok β := by
  rw [ridgeFit, if_neg hdet]
  congr 1
  rw [← hβ, Matrix.mulVec_mulVec, Matrix.adjugate_mul, Matrix.smul_mulVec_assoc,
    Matrix.one_mulVec, smul_smul, inv_mul_cancel₀ hdet, one_smul]

/-! ### The regularized objective: expansion around a solution of the normal
equations, and minimality -/

lemma sqNorm_decompose {n : ℕ} (u v : Vec n) :
    sqNorm v = sqNorm u + 2 * (u ⬝ᵥ (v - u)) + sqNorm (v - u) := by
  have h : u + (v - u) = v := by abel
  rw [← h, sqNorm_add]
  congr 2 <;> rw [h]

lemma ridgeObjective_expand {n m : ℕ} (X : Mat n m) (y : Vec n) (lam : ℚ)
    (βs β : Vec m) (hβs : ridgeA X lam *ᵥ βs = Xᵀ *ᵥ y) :
    ridgeObjective X y lam β =
      ridgeObjective X y lam βs + sqNorm (X *ᵥ (β - βs)) + lam * sqNorm (β - βs) := by
  have h2 : Xᵀ *ᵥ (X *ᵥ βs) + lam • βs = Xᵀ *ᵥ y := by rw [← ridgeA_mulVec, hβs]
  have h1 : Xᵀ *ᵥ (X *ᵥ βs - y) + lam • βs = 0 := by
    rw [Matrix.mulVec_sub, sub_add_eq_add_sub, h2, sub_self]
  have hcross :
      (X *ᵥ βs - y) ⬝ᵥ (X *ᵥ (β - βs)) + lam * (βs ⬝ᵥ (β - βs)) = 0 := by
    rw [dotProduct_mulVec_shift, ← smul_eq_mul, ← smul_dotProduct, ← add_dotProduct, h1,
      zero_dotProduct]
  have hres : sqNorm (X *ᵥ β - y) =
      sqNorm (X *ᵥ βs - y) + 2 * ((X *ᵥ βs - y) ⬝ᵥ (X *ᵥ (β - βs)))
        + sqNorm (X *ᵥ (β - βs)) := by
    have h3 : X *ᵥ β - y - (X *ᵥ βs - y) = X *ᵥ (β - βs) := by
      rw [Matrix.mulVec_sub]; abel
    have h4 := sqNorm_decompose (X *ᵥ βs - y) (X *ᵥ β - y)
    rw [h3] at h4
    exact h4
  have hβn : sqNorm β = sqNorm βs + 2 * (βs ⬝ᵥ (β - βs)) + sqNorm (β - βs) :=
    sqNorm_decompose βs β
  rw [ridgeObjective, ridgeObjective, hres, hβn]
  linear_combination (2 : ℚ) * hcross

lemma ridgeObjective_min {n m : ℕ} {X : Mat n m} {y : Vec n} {lam : ℚ} {βs : Vec m}
    (hlam : 0 ≤ lam) (hβs : ridgeA X lam *ᵥ βs = Xᵀ *ᵥ y) (β : Vec m) :
    ridgeObjective X y lam βs ≤ ridgeObjective X y lam β := by
  rw [ridgeObjective_expand X y lam βs β hβs]
  have ha := sqNorm_nonneg (X *ᵥ (β - βs))
  have hb := mul_nonneg hlam (sqNorm_nonneg (β - βs))
  linarith

/-! ### Claim theorems -/

/-- C1: for every design matrix `X` (n×m), target vector `y` of length `n`, and
regularization strength `λ ≥ 0` with `XᵀX + λI` invertible, the Ridge Fitter
returns the coefficient vector `β = (XᵀX + λI)⁻¹ Xᵀ y`, and that vector
minimizes `‖Xβ − y‖² + λ‖β‖²`, with the bias column regularized identically to
all other columns (the objective penalizes every coefficient, index 0
included). -/
theorem ridgeFit_closed_form_minimizer {n m : ℕ} (X : Mat n m) (y : Vec n)
    (lam : ℚ) (hlam : 0 ≤ lam) (hinv : IsUnit (ridgeA X lam)) :
    ridgeFit X y lam = .ok ((ridgeA X lam)⁻¹ *ᵥ (Xᵀ *ᵥ y)) ∧
    ∀ β : Vec m,
      ridgeObjective X y lam ((ridgeA X lam)⁻¹ *ᵥ (Xᵀ *ᵥ y)) ≤
        ridgeObjective X y lam β := by
  have hdet : IsUnit (ridgeA X lam).det := (Matrix.isUnit_iff_isUnit_det _).mp hinv
  have hdet0 : (ridgeA X lam).det ≠ 0 := isUnit_iff_ne_zero.mp hdet
  have hne : ridgeA X lam *ᵥ ((ridgeA X lam)⁻¹ *ᵥ (Xᵀ *ᵥ y)) = Xᵀ *ᵥ y := by
    rw [Matrix.mulVec_mulVec, Matrix.mul_nonsing_inv _ hdet, Matrix.one_mulVec]
  exact ⟨ridgeFit_eq_ok _ _ _ _ hdet0 hne, ridgeObjective_min hlam hne⟩

/-- Witness for C1 at `X = I₁`, `y = [2]`, `λ = 0`: the fit returns the closed
form, and the closed form is no worse than the candidate `[0]`. -/
theorem ridgeFit_closed_form_minimizer_witness :
    ridgeFit (1 : Mat 1 1) ![2] 0 =
      .ok ((ridgeA (1 : Mat 1 1) 0)⁻¹ *ᵥ ((1 : Mat 1 1)ᵀ *ᵥ ![2])) ∧
    ridgeObjective (1 : Mat 1 1) ![2] 0
        ((ridgeA (1 : Mat 1 1) 0)⁻¹ *ᵥ ((1 : Mat 1 1)ᵀ *ᵥ ![2])) ≤
      ridgeObjective (1 : Mat 1 1) ![2] 0 ![0] := by
  have hA : ridgeA (1 : Mat 1 1) 0 = 1 := by
    apply Matrix.ext
    intro i j
    fin_cases i
    fin_cases j
    simp only [ridgeA, Matrix.add_apply, Matrix.mul_apply, Matrix.smul_apply,
      Matrix.transpose_apply, Matrix.one_apply, Fin.sum_univ_one]
    norm_num
  have hinv : IsUnit (ridgeA (1 : Mat 1 1) 0) := by rw [hA]; exact isUnit_one
  have h := ridgeFit_closed_form_minimizer (1 : Mat 1 1) ![2] 0 le_rfl hinv
  exact ⟨h.1, h.2 ![0]⟩

/-- C2: for every scalar `x` and degree `d`, the Feature Expander returns the
length-`d+1` vector whose `k`-th entry is `x^k`; in particular entry 0 is `1`
(even at `x = 0`, since the scalar case is covered by the universally
quantified `x`), and applying it row-wise gives the `n×(d+1)` design matrix. -/
theorem polyFeatures_spec (d : ℕ) (x : ℚ) :
    polyFeatures d x 0 = 1 ∧
    (∀ k : Fin (d + 1), polyFeatures d x k = x ^ (k : ℕ)) ∧
    ∀ {n : ℕ} (xs : Vec n) (i : Fin n) (k : Fin (d + 1)),
      designMatrix d xs i k = polyFeatures d (xs i) k := by
  refine ⟨by simp [polyFeatures], fun k => rfl, fun xs i k => rfl⟩

/-- C7: for every fitted model and query sequence, the Predictor returns a
sequence of the same length, whose `i`-th entry is the model evaluated at the
`i`-th query (same order); the model is a pure value so it is not mutated, and
two calls with identical arguments return identical results. -/
theorem predict_deterministic (m : Model) (qs : List ℚ) :
    (predict m qs).length = qs.length ∧
    (∀ i : ℕ, (predict m qs)[i]? = (qs[i]?).map (evalModel m)) ∧
    predict m qs = predict m qs := by
  refine ⟨by simp [predict], fun i => by simp [predict], rfl⟩

/-- C8: for every sample vector and degree, the design matrix has shape
`(n, d+1)` (its type is `Mat n (d+1)`), its column 0 is all-ones, and the
Ridge Fitter inside `fitPoly` receives exactly this design matrix. -/
theorem designMatrix_bias_column {n : ℕ} (d : ℕ) (xs : Vec n) (y : Vec n)
    (lam : ℚ) :
    (∀ i : Fin n, designMatrix d xs i 0 = 1) ∧
    fitPoly d xs y lam = (ridgeFit (designMatrix d xs) y lam).map fun β => ⟨d, β⟩ := by
  exact ⟨fun i => by simp [designMatrix], rfl⟩

/-- C3: for fixed data and degree (any fixed design matrix and targets), the
Euclidean norm of the fitted coefficient vector is non-increasing in the
regularization strength: `0 ≤ λ₁ ≤ λ₂` implies `‖β(λ₂)‖ ≤ ‖β(λ₁)‖`. -/
theorem ridge_shrinkage {n m : ℕ} (X : Mat n m) (y : Vec n) (lam1 lam2 : ℚ)
    (h0 : 0 ≤ lam1) (h12 : lam1 ≤ lam2) (β1 β2 : Vec m)
    (hfit1 : ridgeFit X y lam1 = .ok β1) (hfit2 : ridgeFit X y lam2 = .ok β2) :
    Real.sqrt ((sqNorm β2 : ℚ) : ℝ) ≤ Real.sqrt ((sqNorm β1 : ℚ) : ℝ) := by
  have key : sqNorm β2 ≤ sqNorm β1 := by
    rcases eq_or_lt_of_le h12 with heq | hlt
    · subst heq
      rw [hfit1] at hfit2
      rw [Except.ok.inj hfit2]
    · have hne1 := (ridgeFit_normalEq hfit1).2
      have hne2 := (ridgeFit_normalEq hfit2).2
      have hmin1 := ridgeObjective_min h0 hne1 β2
      have hmin2 := ridgeObjective_min (le_trans h0 h12) hne2 β1
      rw [ridgeObjective, ridgeObjective] at hmin1 hmin2
      by_contra hcon
      push_neg at hcon
      nlinarith [mul_pos (sub_pos.mpr hlt) (sub_pos.mpr hcon)]
  exact Real.sqrt_le_sqrt (by exact_mod_cast key)

/-- Witness for C3 at `X = I₁`, `y = [2]`, `λ₁ = 0`, `λ₂ = 1`: the two fits
produce `[2]` and `[1]`, and the norm at `λ₂` is bounded by the norm at
`λ₁`. -/
theorem ridge_shrinkage_witness :
    ridgeFit (1 : Mat 1 1) ![2] 0 = .ok ![2] ∧
    ridgeFit (1 : Mat 1 1) ![2] 1 = .ok ![1] ∧
    Real.sqrt ((sqNorm (![1] : Vec 1) : ℚ) : ℝ) ≤
      Real.sqrt ((sqNorm (![2] : Vec 1) : ℚ) : ℝ) := by
  have h1 : ridgeFit (1 : Mat 1 1) ![2] 0 = .ok ![2] := by
    apply ridgeFit_eq_ok
    · rw [Matrix.det_fin_one]
      simp only [ridgeA, Matrix.add_apply, Matrix.mul_apply, Matrix.smul_apply,
        Matrix.transpose_apply, Matrix.one_apply, Fin.sum_univ_one]
      norm_num
    · funext i
      fin_cases i
      simp only [ridgeA, Matrix.add_mulVec, Matrix.mulVec, Matrix.dotProduct,
        Fin.sum_univ_one, Matrix.transpose_apply, Matrix.one_apply, Matrix.mul_apply,
        Matrix.smul_apply, Pi.add_apply, Matrix.smul_mulVec_assoc]
      norm_num
  have h2 : ridgeFit (1 : Mat 1 1) ![2] 1 = .ok ![1] := by
    apply ridgeFit_eq_ok
    · rw [Matrix.det_fin_one]
      simp only [ridgeA, Matrix.add_apply, Matrix.mul_apply, Matrix.smul_apply,
        Matrix.transpose_apply, Matrix.one_apply, Fin.sum_univ_one]
      norm_num
    · funext i
      fin_cases i
      simp only [ridgeA, Matrix.add_mulVec, Matrix.mulVec, Matrix.dotProduct,
        Fin.sum_univ_one, Matrix.transpose_apply, Matrix.one_apply, Matrix.mul_apply,
        Matrix.smul_apply, Pi.add_apply, Matrix.smul_mulVec_assoc]
      norm_num
  exact ⟨h1, h2,
    ridge_shrinkage (1 : Mat 1 1) ![2] 0 1 le_rfl zero_le_one ![2] ![1] h1 h2⟩

/-- C4: the Ridge Fitter fails with `SingularMatrix` exactly when `XᵀX + λI`
is not invertible; for `λ ≥ 0` this can happen only when `λ = 0` and the design
matrix is rank-deficient (its columns admit a nontrivial null vector); and for
`λ > 0` the fit never raises `SingularMatrix`. -/
theorem ridgeFit_singular_iff {n m : ℕ} (X : Mat n m) (y : Vec n) (lam : ℚ) :
    (ridgeFit X y lam = .error .SingularMatrix ↔ ¬ IsUnit (ridgeA X lam)) ∧
    (0 ≤ lam → ¬ IsUnit (ridgeA X lam) →
      lam = 0 ∧ ∃ v : Vec m, v ≠ 0 ∧ X *ᵥ v = 0) ∧
    (0 < lam → ridgeFit X y lam ≠ .error .SingularMatrix) := by
  have hdet_iff : ¬ IsUnit (ridgeA X lam) ↔ (ridgeA X lam).det = 0 := by
    rw [Matrix.isUnit_iff_isUnit_det, isUnit_iff_ne_zero, not_not]
  have hiff : ridgeFit X y lam = .error .SingularMatrix ↔ (ridgeA X lam).det = 0 := by
    rw [ridgeFit]
    split
    · next h => simp [h]
    · next h => simp [h]
  refine ⟨hiff.trans hdet_iff.symm, fun hlam hnu => ?_, fun hpos hcontra => ?_⟩
  · have hdet := hdet_iff.mp hnu
    obtain ⟨v, hv, hAv⟩ := Matrix.exists_mulVec_eq_zero_iff.mpr hdet
    have h0 : sqNorm (X *ᵥ v) + lam * sqNorm v = 0 := by
      rw [← quadForm_ridgeA, hAv, dotProduct_zero]
    have ha := sqNorm_nonneg (X *ᵥ v)
    have hb := mul_nonneg hlam (sqNorm_nonneg v)
    have hXv0 : sqNorm (X *ᵥ v) = 0 := by linarith
    have hlv0 : lam * sqNorm v = 0 := by linarith
    have hlam0 : lam = 0 := by
      rcases mul_eq_zero.mp hlv0 with h | h
      · exact h
      · exact absurd h (ne_of_gt (sqNorm_pos hv))
    exact ⟨hlam0, v, hv, sqNorm_eq_zero_iff.mp hXv0⟩
  · exact ridgeA_det_ne_zero_of_pos X hpos (hiff.mp hcontra)

/-- Witness for C4 at the `1×1` zero design matrix: with `λ = 0` the fit is
singular (the zero matrix is rank-deficient), and with `λ = 1` it is not. -/
theorem ridgeFit_singular_iff_witness :
    ridgeFit (0 : Mat 1 1) ![0] 0 = .error .SingularMatrix ∧
    ridgeFit (0 : Mat 1 1) ![0] 1 ≠ .error .SingularMatrix := by
  have hnu : ¬ IsUnit (ridgeA (0 : Mat 1 1) 0) := by
    rw [Matrix.isUnit_iff_isUnit_det, isUnit_iff_ne_zero, not_not, Matrix.det_fin_one]
    simp only [ridgeA, Matrix.add_apply, Matrix.mul_apply, Matrix.smul_apply,
      Matrix.transpose_apply, Matrix.one_apply, Fin.sum_univ_one]
    norm_num
  exact ⟨(ridgeFit_singular_iff (0 : Mat 1 1) ![0] 0).1.mpr hnu,
    (ridgeFit_singular_iff (0 : Mat 1 1) ![0] 1).2.2 one_pos⟩

/-- C5: on the training set `x = [1,2,3]`, `y = [1,4,9]` with degree 2 and
`λ = 0`, the fitted coefficient vector is exactly `[0,0,1]` (so certainly
within `1e-6`), and the Predictor at the single query `4` returns exactly
`16`. -/
theorem exact_parabola_fit :
    fitPoly 2 ![1, 2, 3] ![1, 4, 9] 0 = .ok ⟨2, ![0, 0, 1]⟩ ∧
    predict ⟨2, ![0, 0, 1]⟩ [4] = [16] := by
  have hXβ : designMatrix 2 ![1, 2, 3] *ᵥ ![0, 0, 1] = ![1, 4, 9] := by
    funext i
    fin_cases i <;>
      · simp only [designMatrix, Matrix.mulVec, Matrix.dotProduct,
          Fin.sum_univ_succ, Fin.sum_univ_zero, Matrix.of_apply]
        norm_num
  have hA : ridgeA (designMatrix 2 ![1, 2, 3]) 0 *ᵥ ![0, 0, 1]
      = (designMatrix 2 ![1, 2, 3])ᵀ *ᵥ ![1, 4, 9] := by
    rw [ridgeA_mulVec, hXβ, zero_smul, add_zero]
  have hdet : (ridgeA (designMatrix 2 ![1, 2, 3]) 0).det ≠ 0 := by
    have h3 : (show Matrix (Fin 3) (Fin 3) ℚ from
        ridgeA (designMatrix 2 ![1, 2, 3]) 0).det = 4 := by
      rw [Matrix.det_fin_three]
      simp only [ridgeA, Matrix.add_apply, Matrix.mul_apply, Matrix.smul_apply,
        Matrix.transpose_apply, Matrix.one_apply, designMatrix, Matrix.of_apply,
        Fin.sum_univ_three]
      norm_num
    exact ne_of_eq_of_ne h3 (by norm_num)
  constructor
  · rw [fitPoly, ridgeFit_eq_ok _ _ _ ![0, 0, 1] hdet hA]
    rfl
  · simp only [predict, List.map, evalModel, polyFeatures, Matrix.dotProduct,
      Fin.sum_univ_succ, Fin.sum_univ_zero]
    norm_num

/-- C6: fitting with degree 0 yields a model whose Predictor returns the
regularized mean of the training targets, `(∑ y) / (n + λ)`, the same constant
for every query point. -/
theorem degree_zero_mean {n : ℕ} (xs : Vec n) (y : Vec n) (lam : ℚ)
    (mdl : Model) (hfit : fitPoly 0 xs y lam = .ok mdl) :
    (∀ q : ℚ, evalModel mdl q = (∑ i, y i) / ((n : ℚ) + lam)) ∧
    ∀ q r : ℚ, evalModel mdl q = evalModel mdl r := by
  rw [fitPoly] at hfit
  cases hok : ridgeFit (designMatrix 0 xs) y lam with
  | error e =>
    rw [hok] at hfit
    exact absurd hfit (by simp [Except.map])
  | ok β =>
    rw [hok] at hfit
    simp only [Except.map] at hfit
    have hmdl : mdl = ⟨0, β⟩ := (Except.ok.inj hfit).symm
    subst hmdl
    obtain ⟨hdet, hnormal⟩ := ridgeFit_normalEq hok
    have hA00 : ridgeA (designMatrix 0 xs) lam 0 0 = (n : ℚ) + lam := by
      simp only [ridgeA, Matrix.add_apply, Matrix.mul_apply, Matrix.smul_apply,
        Matrix.transpose_apply, Matrix.one_apply_eq, designMatrix, Matrix.of_apply]
      simp
    have hdetval : (ridgeA (designMatrix 0 xs) lam).det = (n : ℚ) + lam := by
      rw [Matrix.det_fin_one, hA00]
    have hne : (n : ℚ) + lam ≠ 0 := hdetval ▸ hdet
    have h0 := congrFun hnormal 0
    have hlhs : (ridgeA (designMatrix 0 xs) lam *ᵥ β) 0 = ((n : ℚ) + lam) * β 0 := by
      simp only [Matrix.mulVec, Matrix.dotProduct, Fin.sum_univ_succ,
        Fin.sum_univ_zero, add_zero, hA00]
    have hrhs : ((designMatrix 0 xs)ᵀ *ᵥ y) 0 = ∑ i, y i := by
      simp only [Matrix.mulVec, Matrix.dotProduct, Matrix.transpose_apply,
        designMatrix, Matrix.of_apply]
      simp
    rw [hlhs, hrhs] at h0
    have hβ0 : β 0 = (∑ i, y i) / ((n : ℚ) + lam) := by
      rw [eq_div_iff hne, mul_comm, h0]
    have heval : ∀ q : ℚ, evalModel ⟨0, β⟩ q = β 0 := by
      intro q
      simp only [evalModel, polyFeatures, Matrix.dotProduct, Fin.sum_univ_one]
      simp
    exact ⟨fun q => by rw [heval q, hβ0],
      fun q r => by rw [heval q, heval r]⟩

/-- Witness for C6 at `x = [5]`, `y = [3]`, `λ = 0`: the degree-0 fit yields
the constant model `[3]`, and the prediction at the query `7` is the
regularized mean `3 / (1 + 0)`. -/
theorem degree_zero_mean_witness :
    fitPoly 0 ![5] ![3] 0 = .ok ⟨0, ![3]⟩ ∧
    evalModel ⟨0, ![3]⟩ 7 = (∑ i, (![3] : Vec 1) i) / (((1 : ℕ) : ℚ) + 0) := by
  have hXβ : designMatrix 0 ![5] *ᵥ ![3] = ![3] := by
    funext i
    fin_cases i
    simp only [designMatrix, Matrix.mulVec, Matrix.dotProduct, Fin.sum_univ_succ,
      Fin.sum_univ_zero, Matrix.of_apply]
    norm_num
  have hA : ridgeA (designMatrix 0 ![5]) 0 *ᵥ ![3]
      = (designMatrix 0 ![5])ᵀ *ᵥ ![3] := by
    rw [ridgeA_mulVec, hXβ, zero_smul, add_zero]
  have hdet : (ridgeA (designMatrix 0 ![5]) 0).det ≠ 0 := by
    rw [Matrix.det_fin_one]
    simp only [ridgeA, Matrix.add_apply, Matrix.mul_apply, Matrix.smul_apply,
      Matrix.transpose_apply, Matrix.one_apply, designMatrix, Matrix.of_apply,
      Fin.sum_univ_one]
    norm_num
  have hfit : fitPoly 0 ![(5 : ℚ)] ![3] 0 = .ok ⟨0, ![3]⟩ := by
    rw [fitPoly, ridgeFit_eq_ok _ _ _ ![3] hdet hA]
    rfl
  exact ⟨hfit, (degree_zero_mean ![5] ![3] 0 ⟨0, ![3]⟩ hfit).1 7⟩

/-- C9 (amended): the training targets are exact, noise-free samples of the
ground-truth function: for each of the 20 training points, `y_i` equals the
ground-truth function applied to `x_i`, so the purported added noise term is
zero. -/
theorem trainY_exact_samples (trainX : Fin 20 → ℝ) (i : Fin 20) :
    trainY trainX i - f (trainX i) = 0 := by
  simp [trainY]

/-- C9 counterexample: at a concrete vector of training inputs (all zero), the
first target equals the ground-truth value exactly — the difference that the
claim calls an added noise term is `0`, so the samples are not noisy. -/
theorem trainY_not_noisy_counterexample :
    trainY (fun _ => 0) 0 - f 0 = 0 := by
  simp [trainY]

/-- C10: the illustrative run constructs every model with the library default
regularization strength `defaultAlpha = 1`, which is strictly positive; hence
for every training set and each degree in `{3, 4, 5}` the matrix `XᵀX + λI` is
positive definite, and the `SingularMatrix` failure branch is unreachable. -/
theorem default_alpha_run_safe {n : ℕ} (d : ℕ) (hd : d = 3 ∨ d = 4 ∨ d = 5)
    (xs : Vec n) (y : Vec n) :
    0 < defaultAlpha ∧
    (∀ v : Vec (d + 1), v ≠ 0 →
      0 < v ⬝ᵥ (ridgeA (designMatrix d xs) defaultAlpha *ᵥ v)) ∧
    fitPoly d xs y defaultAlpha ≠ .error .SingularMatrix := by
  have hpos : (0 : ℚ) < defaultAlpha := one_pos
  refine ⟨hpos, fun v hv => ?_, fun hcon => ?_⟩
  · rw [quadForm_ridgeA]
    exact add_pos_of_nonneg_of_pos (sqNorm_nonneg _)
      (mul_pos hpos (sqNorm_pos hv))
  · have hdet := ridgeA_det_ne_zero_of_pos (designMatrix d xs) hpos
    rw [fitPoly, ridgeFit, if_neg hdet] at hcon
    simp [Except.map] at hcon

/-- Witness for C10 at degree 3 with the one-point training set `x = [0]`,
`y = [0]`: the quadratic form is positive at the all-ones vector and the fit
does not fail with `SingularMatrix`. -/
theorem default_alpha_run_safe_witness :
    0 < defaultAlpha ∧
    0 < (fun _ : Fin (3 + 1) => (1 : ℚ)) ⬝ᵥ
        (ridgeA (designMatrix 3 ![0]) defaultAlpha *ᵥ fun _ => (1 : ℚ)) ∧
    fitPoly 3 ![(0 : ℚ)] ![0] defaultAlpha ≠ .error .SingularMatrix := by
  have h := default_alpha_run_safe 3 (Or.inl rfl) ![(0 : ℚ)] ![0]
  refine ⟨h.1, h.2.1 (fun _ => 1) fun hcon => ?_, h.2.2⟩
  simpa using congrFun hcon 0

end PolyInterp
